import Mathlib

/-!
A verification development for `verilog_lint.py`, a single-module Verilog
signal checker.  The Python source works by regular-expression scanning over
the comment/literal-normalized text; here every regex of the source is
translated into an explicit matcher over `List Char` (ASCII texts), and
`re.finditer`'s left-to-right non-overlapping scan into a fueled scanner.
Greedy character-class repetition is deterministic maximal munch; the only
backtracking the source's patterns need is on their optional groups, which
`tryOpt` performs (present branch first, as Python does).
-/

namespace VerilogLint

/-- The electrical kind a declaration records: the source stores the matched
keyword string, `'wire'` or `'reg'`. -/
inductive Kind where
  | wire
  | reg
deriving DecidableEq, Repr

/-- One internal (non-port) signal declaration: name, kind, 1-based line. -/
structure Signal where
  name : List Char
  kind : Kind
  line : Nat
deriving DecidableEq, Repr

/-- A produced warning: 1-based line and message text. -/
structure Warning where
  line : Nat
  message : List Char
deriving DecidableEq, Repr

/-- The source's `_KEYWORDS` set: Verilog reserved words, never signal names. -/
def keywordStrings : List String :=
  ["module", "endmodule", "input", "output", "inout", "wire", "reg",
   "integer", "real", "time", "realtime", "parameter", "localparam",
   "assign", "always", "initial", "begin", "end", "if", "else",
   "case", "casex", "casez", "endcase", "for", "while", "repeat",
   "forever", "fork", "join", "posedge", "negedge", "or", "and",
   "not", "xor", "nor", "nand", "xnor", "buf", "bufif0", "bufif1",
   "notif0", "notif1", "defparam", "task", "endtask", "function",
   "endfunction", "generate", "endgenerate", "genvar", "signed",
   "unsigned", "supply0", "supply1", "tri", "tri0", "tri1", "wand",
   "wor", "trireg", "disable", "default", "deassign", "force",
   "release", "wait"]

def keywords : List (List Char) := keywordStrings.map String.data

def isKeyword (n : List Char) : Bool := decide (n ∈ keywords)

/-- Python `\w` on the ASCII texts this tool processes: `[A-Za-z0-9_]`. -/
def wordChar (c : Char) : Bool := c.isAlpha || c.isDigit || c = '_'

/-- Python `\s` on ASCII: space, tab, newline, carriage return, vtab, formfeed. -/
def spaceChar (c : Char) : Bool :=
  c = ' ' || c = '\t' || c = '\n' || c = '\r' || c = '\x0b' || c = '\x0c'

def countNl (l : List Char) : Nat := l.count '\n'

/-! ## Normalizer (`_strip_comments`, `_strip_literals`, `_line_of`) -/

/-- Split at the first occurrence of the two characters `*/`: the text before
it and the text after it.  This is the lazy `.*?\*/` of the block-comment
regex. -/
def findClose : List Char → Option (List Char × List Char)
  | [] => none
  | '*' :: '/' :: rest => some ([], rest)
  | c :: rest =>
    match findClose rest with
    | some (b, a) => some (c :: b, a)
    | none => none

/-- `re.sub(r'/\*.*?\*/', <that many newlines>, text, flags=DOTALL)`:
each block comment is replaced by a run of as many newlines as it contained.
An unclosed `/*` never matches and the remaining text is left unchanged.
Fuel counts consumed characters; `textLength` fuel always suffices. -/
def stripBlockAux : Nat → List Char → List Char
  | 0, l => l
  | fuel+1, l =>
    match l with
    | '/' :: '*' :: rest =>
      match findClose rest with
      | some (inside, after) =>
          List.replicate (countNl inside) '\n' ++ stripBlockAux fuel after
      | none => '/' :: '*' :: rest
    | c :: rest => c :: stripBlockAux fuel rest
    | [] => []

def stripBlock (l : List Char) : List Char := stripBlockAux l.length l

/-- Drop characters up to (but not including) the next newline: the `[^\n]*`
part of the line-comment regex never eats the terminating newline. -/
def dropLine : List Char → List Char
  | [] => []
  | c :: rest => if c = '\n' then c :: rest else dropLine rest

/-- `re.sub(r'//[^\n]*', '', text)`. -/
def stripLineAux : Nat → List Char → List Char
  | 0, l => l
  | fuel+1, l =>
    match l with
    | '/' :: '/' :: rest => stripLineAux fuel (dropLine rest)
    | c :: rest => c :: stripLineAux fuel rest
    | [] => []

def stripLine (l : List Char) : List Char := stripLineAux l.length l

/-- `_strip_comments`: block comments first, then line comments. -/
def stripComments (l : List Char) : List Char := stripLine (stripBlock l)

def isRadixChar (c : Char) : Bool :=
  c = 'b' || c = 'B' || c = 'o' || c = 'O' || c = 'd' || c = 'D' || c = 'h' || c = 'H'

/-- The digit class `[0-9a-fA-FxXzZ_]` of the numeric-literal regex. -/
def isLitDigit (c : Char) : Bool :=
  c.isDigit || ('a' ≤ c && c ≤ 'f') || ('A' ≤ c && c ≤ 'F') ||
  c = 'x' || c = 'X' || c = 'z' || c = 'Z' || c = '_'

/-- Anchored match of `\d*'[bBoOdDhH][0-9a-fA-FxXzZ_]+` at the head of the
list: the matched length and the remaining text. -/
def matchLit (l : List Char) : Option (Nat × List Char) :=
  let ds := l.takeWhile Char.isDigit
  match l.dropWhile Char.isDigit with
  | q :: r :: rest =>
    if q = '\'' && isRadixChar r then
      let hs := rest.takeWhile isLitDigit
      if hs.length = 0 then none
      else some (ds.length + 2 + hs.length, rest.dropWhile isLitDigit)
    else none
  | _ => none

/-- `_strip_literals`: each sized numeric literal becomes an equal-length run
of blanks. -/
def stripLitsAux : Nat → List Char → List Char
  | 0, l => l
  | fuel+1, l =>
    match matchLit l with
    | some (n, rest) => List.replicate n ' ' ++ stripLitsAux fuel rest
    | none =>
      match l with
      | [] => []
      | c :: rest => c :: stripLitsAux fuel rest

def stripLits (l : List Char) : List Char := stripLitsAux l.length l

/-- The normalization pipeline applied by `check_module` before any scan. -/
def normalize (l : List Char) : List Char := stripLits (stripComments l)

/-- `_line_of`: 1-based line number of a character position. -/
def lineOf (t : List Char) (pos : Nat) : Nat := countNl (t.take pos) + 1

/-! ## Matching primitives -/

def charAt (t : List Char) (i : Nat) : Option Char := t.get? i

def testAt (t : List Char) (p : Char → Bool) (i : Nat) : Bool :=
  match charAt t i with
  | some c => p c
  | none => false

def isWordAt (t : List Char) (i : Nat) : Bool := testAt t wordChar i

/-- Python `\b` at position `i`: word-character-ness changes between `i-1`
and `i` (positions outside the text count as non-word). -/
def boundaryAt (t : List Char) (i : Nat) : Bool :=
  (if i = 0 then false else isWordAt t (i-1)) != isWordAt t i

/-- Greedy maximal munch of a character class from `i`: the end position.
Fuel `t.length` always suffices. -/
def starCAux (t : List Char) (p : Char → Bool) : Nat → Nat → Nat
  | 0, i => i
  | fuel+1, i => if testAt t p i then starCAux t p fuel (i+1) else i

def starC (t : List Char) (p : Char → Bool) (i : Nat) : Nat :=
  starCAux t p t.length i

/-- One-or-more repetition of a class: `none` when it matches nothing. -/
def plusC (t : List Char) (p : Char → Bool) (i : Nat) : Option Nat :=
  let e := starC t p i
  if i < e then some e else none

/-- Literal text at position `i`: the end position on success. -/
def litAt (t : List Char) : List Char → Nat → Option Nat
  | [], i => some i
  | c :: cs, i =>
    match charAt t i with
    | some d => if d = c then litAt t cs (i+1) else none
    | none => none

/-- `\b<word>\b` at position `i`. -/
def kwAt (t : List Char) (s : List Char) (i : Nat) : Option Nat :=
  if boundaryAt t i then
    match litAt t s i with
    | some e => if boundaryAt t e then some e else none
    | none => none
  else none

/-- `text[i:j]` of the Python slices. -/
def slice (t : List Char) (i j : Nat) : List Char := (t.take j).drop i

/-- `re.finditer`: scan positions left to right, at each try the anchored
matcher; on a match yield it and continue at its end (every pattern of the
source matches at least one character, so each step advances and `size`
fuel suffices). -/
def scanAux (size : Nat) (f : Nat → Option (α × Nat)) : Nat → Nat → List α
  | 0, _ => []
  | fuel+1, i =>
    if i < size then
      match f i with
      | some (a, e) => a :: scanAux size f fuel (max e (i+1))
      | none => scanAux size f fuel (i+1)
    else []

def finditer (t : List Char) (f : Nat → Option (α × Nat)) : List α :=
  scanAux t.length f t.length 0

/-- A deterministic optional group, Python-style: try the present branch
first, fall back to skipping the group. -/
def tryOpt (o : Option Nat) (j : Nat) (cont : Nat → Option α) : Option α :=
  match o with
  | some j2 => cont j2 <|> cont j
  | none => cont j

/-! ## The source's individual regexes -/

/-- `\b([A-Za-z_]\w*)\b` at `i`: the identifier-token scan used by the port
list split, the undefined-reference walk and the reference counter.  Yields
(start, name). -/
def matchIdentAt (t : List Char) (i : Nat) : Option ((Nat × List Char) × Nat) :=
  match charAt t i with
  | some c =>
    if (c.isAlpha || c = '_') && (i == 0 || !isWordAt t (i-1)) then
      let e := starC t wordChar (i+1)
      some ((i, slice t i e), e)
    else none
  | none => none

def identsIn (s : List Char) : List (Nat × List Char) := finditer s (matchIdentAt s)

/-- `\bassign\b\s+(\w+)` at `i`: yields (start of `assign`, captured name). -/
def matchAssignAt (t : List Char) (i : Nat) : Option ((Nat × List Char) × Nat) :=
  match kwAt t "assign".data i with
  | some d =>
    match plusC t spaceChar d with
    | some s =>
      match plusC t wordChar s with
      | some w => some ((i, slice t s w), w)
      | none => none
    | none => none
  | none => none

def assignMatches (t : List Char) : List (Nat × List Char) :=
  finditer t (matchAssignAt t)

/-- Optional `(?:\s+(?:wire|reg))?` group body. -/
def optWR (t : List Char) (j : Nat) : Option Nat :=
  match plusC t spaceChar j with
  | some s => litAt t "wire".data s <|> litAt t "reg".data s
  | none => none

/-- Optional `(?:\s+(?:signed|unsigned))?` group body. -/
def optSU (t : List Char) (j : Nat) : Option Nat :=
  match plusC t spaceChar j with
  | some s => litAt t "signed".data s <|> litAt t "unsigned".data s
  | none => none

/-- Optional `(?:\s*\[[^\]]*\])?` group body. -/
def optRange (t : List Char) (j : Nat) : Option Nat :=
  let s := starC t spaceChar j
  match charAt t s with
  | some c =>
    if c = '[' then
      let k := starC t (fun d => d != ']') (s+1)
      match charAt t k with
      | some c2 => if c2 = ']' then some (k+1) else none
      | none => none
    else none
  | none => none

/-- `\b(?:input|output|inout)\b` at `i`. -/
def kwDir (t : List Char) (i : Nat) : Option Nat :=
  kwAt t "input".data i <|> kwAt t "output".data i <|> kwAt t "inout".data i

/-- `ansi_port_re`: direction keyword, the optional groups, then
`\s+(\w+)\s*[,)]`.  Yields the captured port name. -/
def matchAnsiAt (t : List Char) (i : Nat) : Option (List Char × Nat) :=
  match kwDir t i with
  | some d =>
    tryOpt (optWR t d) d fun j1 =>
    tryOpt (optSU t j1) j1 fun j2 =>
    tryOpt (optRange t j2) j2 fun j3 =>
      match plusC t spaceChar j3 with
      | some s =>
        match plusC t wordChar s with
        | some w =>
          let z := starC t spaceChar w
          match charAt t z with
          | some c => if c = ',' || c = ')' then some (slice t s w, z+1) else none
          | none => none
        | none => none
      | none => none
  | none => none

def ansiMatches (t : List Char) : List (List Char) := finditer t (matchAnsiAt t)

/-- `non_ansi_port_re`: direction keyword, the optional groups, then
`([^;]*);`.  Yields (match start, group start, group end); the match ends
just after the semicolon. -/
def matchNonAnsiAt (t : List Char) (i : Nat) : Option ((Nat × Nat × Nat) × Nat) :=
  match kwDir t i with
  | some d =>
    tryOpt (optWR t d) d fun j1 =>
    tryOpt (optSU t j1) j1 fun j2 =>
    tryOpt (optRange t j2) j2 fun j3 =>
      let g := starC t (fun c => c != ';') j3
      match charAt t g with
      | some c => if c = ';' then some ((i, j3, g), g+1) else none
      | none => none
  | none => none

def nonAnsiMatches (t : List Char) : List (Nat × Nat × Nat) :=
  finditer t (matchNonAnsiAt t)

/-- Shared tail of `sig_decl_re` after `\b(wire|reg)\b` matched at `i`
ending at `d`: yields (kind, match start, group start, group end). -/
def matchSigDeclTail (t : List Char) (kind : Kind) (i d : Nat) :
    Option ((Kind × Nat × Nat × Nat) × Nat) :=
  tryOpt (optSU t d) d fun j1 =>
  tryOpt (optRange t j1) j1 fun j2 =>
    let g := starC t (fun c => c != ';') j2
    match charAt t g with
    | some c => if c = ';' then some ((kind, i, j2, g), g+1) else none
    | none => none

/-- `sig_decl_re`: `\b(wire|reg)\b`, the optional groups, then `([^;]*);`. -/
def matchSigDeclAt (t : List Char) (i : Nat) : Option ((Kind × Nat × Nat × Nat) × Nat) :=
  match kwAt t "wire".data i with
  | some d => matchSigDeclTail t Kind.wire i d
  | none =>
    match kwAt t "reg".data i with
    | some d => matchSigDeclTail t Kind.reg i d
    | none => none

def sigDeclMatches (t : List Char) : List (Kind × Nat × Nat × Nat) :=
  finditer t (matchSigDeclAt t)

/-- `\b(?:parameter|localparam)\b\s+(?:\[[^\]]*\]\s+)?(\w+)`: yields the
captured parameter name. -/
def matchParamAt (t : List Char) (i : Nat) : Option (List Char × Nat) :=
  match kwAt t "parameter".data i <|> kwAt t "localparam".data i with
  | some d =>
    match plusC t spaceChar d with
    | some s =>
      let ob : Option Nat :=
        match charAt t s with
        | some c =>
          if c = '[' then
            let k := starC t (fun d2 => d2 != ']') (s+1)
            match charAt t k with
            | some c2 => if c2 = ']' then plusC t spaceChar (k+1) else none
            | none => none
          else none
        | none => none
      tryOpt ob s fun j =>
        match plusC t wordChar j with
        | some w => some (slice t j w, w)
        | none => none
    | none => none
  | none => none

def paramMatches (t : List Char) : List (List Char) := finditer t (matchParamAt t)

/-- `\b(?:output|input|inout)\s+reg\b(?:\s+(?:signed|unsigned))?`
`(?:\s*\[[^\]]*\])?\s*(\w+)`: the port-with-`reg`-qualifier scan. -/
def matchPortRegAt (t : List Char) (i : Nat) : Option (List Char × Nat) :=
  if boundaryAt t i then
    match litAt t "output".data i <|> litAt t "input".data i <|> litAt t "inout".data i with
    | some d =>
      match plusC t spaceChar d with
      | some s =>
        match litAt t "reg".data s with
        | some r =>
          if boundaryAt t r then
            tryOpt (optSU t r) r fun j1 =>
            tryOpt (optRange t j1) j1 fun j2 =>
              let z := starC t spaceChar j2
              match plusC t wordChar z with
              | some w => some (slice t z w, w)
              | none => none
          else none
        | none => none
      | none => none
    | none => none
  else none

def portRegMatches (t : List Char) : List (List Char) :=
  finditer t (matchPortRegAt t)

/-- `\b(always|initial)\b`: yields (start, matched keyword). -/
def matchBlockAt (t : List Char) (i : Nat) : Option ((Nat × List Char) × Nat) :=
  match kwAt t "always".data i with
  | some e => some ((i, "always".data), e)
  | none =>
    match kwAt t "initial".data i with
    | some e => some ((i, "initial".data), e)
    | none => none

def blockMatches (t : List Char) : List (Nat × List Char) :=
  finditer t (matchBlockAt t)

/-- `\b(?:always|initial|assign|endmodule)\b`: yields the match start. -/
def matchEndMarkerAt (t : List Char) (i : Nat) : Option (Nat × Nat) :=
  match kwAt t "always".data i <|> kwAt t "initial".data i <|>
        kwAt t "assign".data i <|> kwAt t "endmodule".data i with
  | some e => some (i, e)
  | none => none

/-- `end_marker_positions` (finditer already yields them in ascending order,
so the source's `sorted` is the identity). -/
def endMarkers (t : List Char) : List Nat := finditer t (matchEndMarkerAt t)

def isCmpChar (c : Char) : Bool := c = '=' || c = '<' || c = '>' || c = '!'

/-- The operator alternative of `_PROC_ASSIGN_RE`: `<=`, or a bare `=` with
negative look-behind `(?<![=<>!])` and look-ahead `(?!=)`. -/
def matchProcOp (b : List Char) (z : Nat) : Option Nat :=
  match litAt b "<=".data z with
  | some e => some e
  | none =>
    match charAt b z with
    | some c =>
      if c = '=' then
        if (z == 0 || !testAt b isCmpChar (z-1)) && !testAt b (fun d => d = '=') (z+1)
        then some (z+1) else none
      else none
    | none => none

/-- `_PROC_ASSIGN_RE`: `\b(\w+)\b(?:\s*\[[^\]]*\])?\s*(?:<=|…=…)` over a
block body; yields (start, l-value name). -/
def matchProcAt (b : List Char) (i : Nat) : Option ((Nat × List Char) × Nat) :=
  if (i == 0 || !isWordAt b (i-1)) && testAt b wordChar i then
    let e := starC b wordChar i
    tryOpt (optRange b e) e fun j =>
      let z := starC b spaceChar j
      match matchProcOp b z with
      | some e2 => some ((i, slice b i e), e2)
      | none => none
  else none

def procMatches (b : List Char) : List (Nat × List Char) := finditer b (matchProcAt b)

/-- `re.search(r'\bmodule\b[^;]*;', text)`: the end position of the first
module-header match, if any. -/
def matchModuleAt (t : List Char) (i : Nat) : Option (Nat × Nat) :=
  match kwAt t "module".data i with
  | some d =>
    let g := starC t (fun c => c != ';') d
    match charAt t g with
    | some c => if c = ';' then some (g+1, g+1) else none
    | none => none
  | none => none

def moduleHeaderEnd (t : List Char) : Option Nat :=
  (finditer t (matchModuleAt t)).head?

/-! ## Symbol extraction (`check_module` steps 1–3) -/

/-- Step 1, `port_names`: ANSI matches (keyword-filtered) plus every
identifier of each non-ANSI match's captured span (keyword-filtered).
Membership is all the source ever asks of this set. -/
def portNames (t : List Char) : List (List Char) :=
  (ansiMatches t).filter (fun n => !isKeyword n) ++
  (nonAnsiMatches t).flatMap (fun m =>
    ((identsIn (slice t m.2.1 m.2.2)).map Prod.snd).filter (fun n => !isKeyword n))

/-- `port_reg_names` — the source adds every captured name, unfiltered. -/
def portRegNames (t : List Char) : List (List Char) := portRegMatches t

def sigNames (l : List Signal) : List (List Char) := l.map Signal.name

/-- The (kind, declaration line, name) stream of step 2's nested loops:
for each `sig_decl_re` match, each identifier of its captured span. -/
def declTriples (t : List Char) : List (Kind × Nat × List Char) :=
  (sigDeclMatches t).flatMap (fun m =>
    ((identsIn (slice t m.2.2.1 m.2.2.2)).map Prod.snd).map
      (fun n => (m.1, lineOf t m.2.1, n)))

/-- Step 2's insertion: skip keywords, ports and already-present names
(first declaration wins); otherwise record the signal. -/
def insertSig (t : List Char) (acc : List Signal) (d : Kind × Nat × List Char) :
    List Signal :=
  if isKeyword d.2.2 || decide (d.2.2 ∈ portNames t) || decide (d.2.2 ∈ sigNames acc)
  then acc
  else acc ++ [⟨d.2.2, d.1, d.2.1⟩]

/-- `internal_signals`, an insertion-ordered table (Python dict). -/
def internalSignals (t : List Char) : List Signal :=
  (declTriples t).foldl (insertSig t) []

/-- Dict lookup by name. -/
def findSig (l : List Signal) (n : List Char) : Option Signal :=
  l.find? (fun s => decide (s.name = n))

/-- The inclusive line range of a match span `[s, e)`:
`range(_line_of(start), _line_of(end)+1)`. -/
def lineSpan (t : List Char) (s e : Nat) : List Nat :=
  List.range' (lineOf t s) (lineOf t e + 1 - lineOf t s)

/-- `decl_lines`: every line spanned by a `sig_decl_re` or non-ANSI-port
match. -/
def declLines (t : List Char) : List Nat :=
  (sigDeclMatches t).flatMap (fun m => lineSpan t m.2.1 (m.2.2.2+1)) ++
  (nonAnsiMatches t).flatMap (fun m => lineSpan t m.1 (m.2.2+1))

/-- `param_names`. -/
def paramNames (t : List Char) : List (List Char) := paramMatches t

/-- `all_known`: ports ∪ internal signals ∪ parameters. -/
def allKnown (t : List Char) (n : List Char) : Bool :=
  decide (n ∈ portNames t) || decide (n ∈ sigNames (internalSignals t)) ||
  decide (n ∈ paramNames t)

/-- `_effective_kind`. -/
def effKind (t : List Char) (n : List Char) : Option Kind :=
  match findSig (internalSignals t) n with
  | some s => some s.kind
  | none =>
    if n ∈ portRegNames t then some Kind.reg
    else if n ∈ portNames t then some Kind.wire
    else none

/-! ## The four rules and the collector (`check_module` steps 4–7) -/

def r1msg (n : List Char) : List Char :=
  "Signal '".data ++ n ++ "' is declared as 'reg' but driven by 'assign' statement".data

def r2msg (n bk : List Char) : List Char :=
  "Signal '".data ++ n ++ "' is declared as 'wire' but assigned in '".data ++
  bk ++ "' block".data

def r3msg (n : List Char) : List Char :=
  "Signal '".data ++ n ++ "' is referenced but not declared".data

def r4msg (n : List Char) : List Char :=
  "Signal '".data ++ n ++ "' is declared but never referenced".data

/-- Step 4: assign driving a `reg`. -/
def r1 (t : List Char) : List Warning :=
  (assignMatches t).filterMap (fun m =>
    if effKind t m.2 = some Kind.reg
    then some ⟨lineOf t m.1, r1msg m.2⟩ else none)

/-- `nexts[0] if nexts else len(text)` over the ascending marker list. -/
def firstGreater (l : List Nat) (x dflt : Nat) : Nat :=
  match l.filter (fun p => x < p) with
  | [] => dflt
  | y :: _ => y

/-- Step 5: procedural assignment to a `wire` inside an always/initial
block. -/
def r2 (t : List Char) : List Warning :=
  (blockMatches t).flatMap (fun bm =>
    let bend := firstGreater (endMarkers t) bm.1 t.length
    let body := slice t bm.1 bend
    (procMatches body).filterMap (fun pm =>
      if isKeyword pm.2 then none
      else if effKind t pm.2 = some Kind.wire
      then some ⟨lineOf t (bm.1 + pm.1), r2msg pm.2 bm.2⟩ else none))

/-- `body_start`: after the module header's terminating semicolon, or 0
when no header matches. -/
def bodyStart (t : List Char) : Nat :=
  match moduleHeaderEnd t with
  | some e => e
  | none => 0

def bodyText (t : List Char) : List Char := t.drop (bodyStart t)

/-- Step 6's loop with its `undefined_seen` set. -/
def r3Go (t : List Char) (bs : Nat) :
    List (Nat × List Char) → List (List Char) → List Warning
  | [], _ => []
  | m :: rest, seen =>
    if isKeyword m.2 || allKnown t m.2 || decide (m.2 ∈ seen) then
      r3Go t bs rest seen
    else if lineOf t (bs + m.1) ∈ declLines t then
      r3Go t bs rest seen
    else
      ⟨lineOf t (bs + m.1), r3msg m.2⟩ :: r3Go t bs rest (m.2 :: seen)

/-- Step 6: reference without declaration. -/
def r3 (t : List Char) : List Warning :=
  r3Go t (bodyStart t) (identsIn (bodyText t)) []

/-- Step 7's `ref_count[name]`: body identifier occurrences of `name` on
lines outside `decl_lines`. -/
def refCount (t : List Char) (n : List Char) : Nat :=
  ((identsIn (bodyText t)).filter (fun m =>
    decide (m.2 = n) && !decide (lineOf t (bodyStart t + m.1) ∈ declLines t))).length

/-- Step 7: declared but never referenced, in table insertion order. -/
def r4 (t : List Char) : List Warning :=
  (internalSignals t).filterMap (fun s =>
    if refCount t s.name = 0 then some ⟨s.line, r4msg s.name⟩ else none)

/-- Stable insertion by ascending line: a new warning goes after every
warning whose line is ≤ its own, which is exactly Python's stable
`list.sort(key=line)` applied to the accumulated list. -/
def insertW (w : Warning) : List Warning → List Warning
  | [] => [w]
  | x :: xs => if x.line ≤ w.line then x :: insertW w xs else w :: x :: xs

def sortW (l : List Warning) : List Warning :=
  l.foldl (fun acc w => insertW w acc) []

/-- `check_module`: normalize, run the four rules in source order, sort
stably by line. -/
def checkModule (input : List Char) : List Warning :=
  let t := normalize input
  sortW (r1 t ++ r2 t ++ r3 t ++ r4 t)

/-! ## Lemmas: the stable sort -/

theorem insertW_perm (w : Warning) (l : List Warning) :
    List.Perm (insertW w l) (w :: l) := by
  induction l with
  | nil => simp [insertW]
  | cons x xs ih =>
    simp only [insertW]
    split
    · exact (ih.cons x).trans (List.Perm.swap w x xs)
    · exact List.Perm.refl _

theorem foldl_insertW_perm (l : List Warning) :
    ∀ acc, List.Perm (l.foldl (fun acc w => insertW w acc) acc) (acc ++ l) := by
  induction l with
  | nil => intro acc; simp
  | cons w ws ih =>
    intro acc
    simp only [List.foldl_cons]
    refine (ih (insertW w acc)).trans ?_
    refine ((insertW_perm w acc).append_right ws).trans ?_
    exact List.perm_middle.symm

theorem sortW_perm (l : List Warning) : List.Perm (sortW l) l := by
  simpa using foldl_insertW_perm l []

theorem mem_sortW {w : Warning} {l : List Warning} : w ∈ sortW l ↔ w ∈ l :=
  (sortW_perm l).mem_iff

theorem insertW_pairwise {l : List Warning} (w : Warning)
    (h : l.Pairwise (fun a b => a.line ≤ b.line)) :
    (insertW w l).Pairwise (fun a b => a.line ≤ b.line) := by
  induction l with
  | nil => simp [insertW]
  | cons x xs ih =>
    rw [List.pairwise_cons] at h
    obtain ⟨hx, hxs⟩ := h
    simp only [insertW]
    split
    · rename_i hle
      rw [List.pairwise_cons]
      refine ⟨?_, ih hxs⟩
      intro b hb
      rcases List.mem_cons.mp ((insertW_perm w xs).mem_iff.mp hb) with hb | hb
      · exact hb ▸ hle
      · exact hx b hb
    · rename_i hgt
      have hwx : w.line ≤ x.line := Nat.le_of_lt (Nat.lt_of_not_le hgt)
      rw [List.pairwise_cons]
      refine ⟨?_, List.Pairwise.cons hx hxs⟩
      intro b hb
      rcases List.mem_cons.mp hb with hb | hb
      · exact hb ▸ hwx
      · exact Nat.le_trans hwx (hx b hb)

theorem foldl_insertW_pairwise (l : List Warning) :
    ∀ acc, acc.Pairwise (fun a b => a.line ≤ b.line) →
      (l.foldl (fun acc w => insertW w acc) acc).Pairwise (fun a b => a.line ≤ b.line) := by
  induction l with
  | nil => intro acc h; simpa using h
  | cons w ws ih => intro acc h; exact ih _ (insertW_pairwise w h)

theorem sortW_pairwise (l : List Warning) :
    (sortW l).Pairwise (fun a b => a.line ≤ b.line) :=
  foldl_insertW_pairwise l [] (by simp)

theorem insertW_filter (w : Warning) (l : List Warning) (k : Nat)
    (h : l.Pairwise (fun a b => a.line ≤ b.line)) :
    (insertW w l).filter (fun x => decide (x.line = k)) =
      if w.line = k then l.filter (fun x => decide (x.line = k)) ++ [w]
      else l.filter (fun x => decide (x.line = k)) := by
  induction l with
  | nil =>
    simp only [insertW, List.filter]
    by_cases hw : w.line = k <;> simp [hw]
  | cons x xs ih =>
    rw [List.pairwise_cons] at h
    obtain ⟨hx, hxs⟩ := h
    simp only [insertW]
    split
    · rename_i hle
      rw [List.filter_cons, List.filter_cons, ih hxs]
      by_cases hxk : x.line = k <;> by_cases hwk : w.line = k <;> simp [hxk, hwk]
    · rename_i hgt
      have hwx : w.line < x.line := Nat.lt_of_not_le hgt
      rw [List.filter_cons]
      by_cases hwk : w.line = k
      · have hnil : (x :: xs).filter (fun x => decide (x.line = k)) = [] := by
          rw [List.filter_eq_nil_iff]
          intro a ha
          simp only [decide_eq_true_eq]
          rcases List.mem_cons.mp ha with ha | ha
          · subst ha; omega
          · have := hx a ha; omega
        rw [hnil]
        simp [hwk, hnil]
      · simp [hwk]

theorem foldl_insertW_filter (l : List Warning) (k : Nat) :
    ∀ acc, acc.Pairwise (fun a b => a.line ≤ b.line) →
      (l.foldl (fun acc w => insertW w acc) acc).filter (fun x => decide (x.line = k)) =
        acc.filter (fun x => decide (x.line = k)) ++
          l.filter (fun x => decide (x.line = k)) := by
  induction l with
  | nil => intro acc _; simp
  | cons w ws ih =>
    intro acc h
    simp only [List.foldl_cons]
    rw [ih (insertW w acc) (insertW_pairwise w h), insertW_filter w acc k h,
      List.filter_cons]
    by_cases hwk : w.line = k <;> simp [hwk]

/-- Stability of the collector: for each line number, the sorted output's
sub-sequence at that line equals the pre-sort insertion-order sub-sequence. -/
theorem sortW_filter (l : List Warning) (k : Nat) :
    (sortW l).filter (fun x => decide (x.line = k)) =
      l.filter (fun x => decide (x.line = k)) := by
  simpa using foldl_insertW_filter l k [] (by simp)

/-! ## Lemmas: telling the four rules' messages apart -/

/-- The last `n` characters of a message. -/
def lastN (l : List Char) (n : Nat) : List Char := l.drop (l.length - n)

theorem lastN_append (a s : List Char) (n : Nat) (h : n ≤ s.length) :
    lastN (a ++ s) n = lastN s n := by
  unfold lastN
  rw [List.length_append, Nat.add_sub_assoc h, List.drop_append]

theorem lastN_self {l : List Char} {n : Nat} (h : l.length = n) : lastN l n = l := by
  unfold lastN
  simp [h]

theorem le_length_append_right {n : Nat} (a s : List Char) (h : n ≤ s.length) :
    n ≤ (a ++ s).length := by
  rw [List.length_append]; omega

theorem lastN_r1msg (n : List Char) : lastN (r1msg n) 3 = "ent".data := by
  unfold r1msg
  have h0 : (3:Nat) ≤ ("' is declared as 'reg' but driven by 'assign' statement".data).length := by
    decide
  rw [lastN_append _ _ _ h0]
  decide

theorem lastN_r2msg (n bk : List Char) : lastN (r2msg n bk) 3 = "ock".data := by
  unfold r2msg
  have h0 : (3:Nat) ≤ ("' block".data).length := by decide
  rw [lastN_append _ _ _ h0]
  decide

theorem lastN_r3msg (n : List Char) : lastN (r3msg n) 3 = "red".data := by
  unfold r3msg
  have h0 : (3:Nat) ≤ ("' is referenced but not declared".data).length := by decide
  rw [lastN_append _ _ _ h0]
  decide

theorem lastN_r4msg (n : List Char) : lastN (r4msg n) 3 = "ced".data := by
  unfold r4msg
  have h0 : (3:Nat) ≤ ("' is declared but never referenced".data).length := by decide
  rw [lastN_append _ _ _ h0]
  decide

theorem r1msg_inj {n m : List Char} (h : r1msg n = r1msg m) : n = m := by
  unfold r1msg at h
  exact List.append_cancel_left (List.append_cancel_right h)

theorem r3msg_inj {n m : List Char} (h : r3msg n = r3msg m) : n = m := by
  unfold r3msg at h
  exact List.append_cancel_left (List.append_cancel_right h)

theorem r4msg_inj {n m : List Char} (h : r4msg n = r4msg m) : n = m := by
  unfold r4msg at h
  exact List.append_cancel_left (List.append_cancel_right h)

theorem lastN14_r2msg_always (n : List Char) :
    lastN (r2msg n "always".data) 14 = "'always' block".data := by
  unfold r2msg
  simp only [List.append_assoc]
  rw [lastN_append _ _ _ (le_length_append_right n _ (by decide)),
    lastN_append _ _ _ (by decide)]
  decide

theorem lastN14_r2msg_initial (n : List Char) :
    lastN (r2msg n "initial".data) 14 = "initial' block".data := by
  unfold r2msg
  simp only [List.append_assoc]
  rw [lastN_append _ _ _ (le_length_append_right n _ (by decide)),
    lastN_append _ _ _ (by decide)]
  decide

/-- Same suffix text means same name and same block kind, for the two block
kinds the scanner produces. -/
theorem r2msg_inj {n m bk bk' : List Char}
    (hbk : bk = "always".data ∨ bk = "initial".data)
    (hbk' : bk' = "always".data ∨ bk' = "initial".data)
    (h : r2msg n bk = r2msg m bk') : n = m ∧ bk = bk' := by
  rcases hbk with hbk | hbk <;> rcases hbk' with hbk' | hbk' <;>
    subst hbk <;> subst hbk'
  · refine ⟨?_, rfl⟩
    unfold r2msg at h
    exact List.append_cancel_left (List.append_cancel_right
      (List.append_cancel_right (List.append_cancel_right h)))
  · exfalso
    have e : lastN (r2msg n "always".data) 14 =
        lastN (r2msg m "initial".data) 14 := by rw [h]
    rw [lastN14_r2msg_always, lastN14_r2msg_initial] at e
    exact absurd e (by decide)
  · exfalso
    have e : lastN (r2msg n "initial".data) 14 =
        lastN (r2msg m "always".data) 14 := by rw [h]
    rw [lastN14_r2msg_always, lastN14_r2msg_initial] at e
    exact absurd e (by decide)
  · refine ⟨?_, rfl⟩
    unfold r2msg at h
    exact List.append_cancel_left (List.append_cancel_right
      (List.append_cancel_right (List.append_cancel_right h)))

/-! ## Lemmas: scanning and the rule lists -/

theorem mem_scanAux {α : Type} {size : Nat} {f : Nat → Option (α × Nat)} :
    ∀ {fuel i : Nat} {a : α}, a ∈ scanAux size f fuel i → ∃ j e, f j = some (a, e) := by
  intro fuel
  induction fuel with
  | zero => intro i a h; simp [scanAux] at h
  | succ fuel ih =>
    intro i a h
    rw [scanAux] at h
    split at h
    · cases hf : f i with
      | some pr =>
        obtain ⟨a', e'⟩ := pr
        rw [hf] at h
        simp only at h
        rcases List.mem_cons.mp h with h | h
        · exact ⟨i, e', by rw [hf, h]⟩
        · exact ih h
      | none =>
        rw [hf] at h
        exact ih h
    · simp at h

theorem mem_finditer {α : Type} {t : List Char} {f : Nat → Option (α × Nat)} {a : α}
    (h : a ∈ finditer t f) : ∃ j e, f j = some (a, e) :=
  mem_scanAux h

/-- A block match's keyword is `always` or `initial`. -/
theorem blockMatches_kind {t : List Char} {bm : Nat × List Char}
    (h : bm ∈ blockMatches t) : bm.2 = "always".data ∨ bm.2 = "initial".data := by
  obtain ⟨j, e, hj⟩ := mem_finditer h
  unfold matchBlockAt at hj
  cases h1 : kwAt t "always".data j <;> rw [h1] at hj
  · cases h2 : kwAt t "initial".data j <;> rw [h2] at hj
    · exact absurd hj (by simp)
    · right
      obtain ⟨h4, -⟩ := Prod.mk.inj ((Option.some.injEq _ _).mp hj)
      rw [← h4]
  · left
    obtain ⟨h4, -⟩ := Prod.mk.inj ((Option.some.injEq _ _).mp hj)
    rw [← h4]

theorem mem_r1 {t : List Char} {w : Warning} :
    w ∈ r1 t ↔ ∃ m ∈ assignMatches t, effKind t m.2 = some Kind.reg ∧
      w = ⟨lineOf t m.1, r1msg m.2⟩ := by
  unfold r1
  rw [List.mem_filterMap]
  constructor
  · rintro ⟨m, hm, hf⟩
    split at hf
    · rename_i hk
      exact ⟨m, hm, hk, ((Option.some.injEq _ _).mp hf).symm⟩
    · exact absurd hf (by simp)
  · rintro ⟨m, hm, hk, hw⟩
    exact ⟨m, hm, by rw [if_pos hk, hw]⟩

theorem mem_r2 {t : List Char} {w : Warning} :
    w ∈ r2 t ↔ ∃ bm ∈ blockMatches t,
      ∃ pm ∈ procMatches (slice t bm.1 (firstGreater (endMarkers t) bm.1 t.length)),
        isKeyword pm.2 = false ∧ effKind t pm.2 = some Kind.wire ∧
        w = ⟨lineOf t (bm.1 + pm.1), r2msg pm.2 bm.2⟩ := by
  unfold r2
  rw [List.mem_flatMap]
  constructor
  · rintro ⟨bm, hbm, hw⟩
    rw [List.mem_filterMap] at hw
    obtain ⟨pm, hpm, hf⟩ := hw
    split at hf
    · exact absurd hf (by simp)
    · rename_i hk
      split at hf
      · rename_i hkind
        exact ⟨bm, hbm, pm, hpm, Bool.of_not_eq_true hk, hkind,
          ((Option.some.injEq _ _).mp hf).symm⟩
      · exact absurd hf (by simp)
  · rintro ⟨bm, hbm, pm, hpm, hk, hkind, hw⟩
    refine ⟨bm, hbm, ?_⟩
    rw [List.mem_filterMap]
    refine ⟨pm, hpm, ?_⟩
    rw [if_neg (by simp [hk]), if_pos hkind, hw]

theorem mem_r4 {t : List Char} {w : Warning} :
    w ∈ r4 t ↔ ∃ s ∈ internalSignals t, refCount t s.name = 0 ∧
      w = ⟨s.line, r4msg s.name⟩ := by
  unfold r4
  rw [List.mem_filterMap]
  constructor
  · rintro ⟨s, hs, hf⟩
    split at hf
    · rename_i h0
      exact ⟨s, hs, h0, ((Option.some.injEq _ _).mp hf).symm⟩
    · exact absurd hf (by simp)
  · rintro ⟨s, hs, h0, hw⟩
    exact ⟨s, hs, by rw [if_pos h0, hw]⟩

/-- Shape of every warning the undefined-reference walk emits. -/
theorem mem_r3Go {t : List Char} {bs : Nat} :
    ∀ {idents : List (Nat × List Char)} {seen : List (List Char)} {w : Warning},
      w ∈ r3Go t bs idents seen →
      ∃ m ∈ idents, w = ⟨lineOf t (bs + m.1), r3msg m.2⟩ ∧
        isKeyword m.2 = false ∧ allKnown t m.2 = false ∧
        lineOf t (bs + m.1) ∉ declLines t := by
  intro idents
  induction idents with
  | nil => intro seen w h; simp [r3Go] at h
  | cons m rest ih =>
    intro seen w h
    rw [r3Go] at h
    split at h
    · obtain ⟨m', hm', hrest⟩ := ih h
      exact ⟨m', List.mem_cons_of_mem m hm', hrest⟩
    · rename_i hcond
      split at h
      · obtain ⟨m', hm', hrest⟩ := ih h
        exact ⟨m', List.mem_cons_of_mem m hm', hrest⟩
      · rename_i hline
        rcases List.mem_cons.mp h with h | h
        · refine ⟨m, List.mem_cons_self m rest, h, ?_, ?_, hline⟩
          · rcases Bool.or_eq_false_iff.mp (Bool.or_eq_false_iff.mp
              (Bool.of_not_eq_true hcond)).1 with ⟨h1, _⟩
            exact h1
          · rcases Bool.or_eq_false_iff.mp (Bool.or_eq_false_iff.mp
              (Bool.of_not_eq_true hcond)).1 with ⟨_, h2⟩
            exact h2
        · obtain ⟨m', hm', hrest⟩ := ih h
          exact ⟨m', List.mem_cons_of_mem m hm', hrest⟩

theorem mem_r3 {t : List Char} {w : Warning} (h : w ∈ r3 t) :
    ∃ m ∈ identsIn (bodyText t), w = ⟨lineOf t (bodyStart t + m.1), r3msg m.2⟩ ∧
      isKeyword m.2 = false ∧ allKnown t m.2 = false ∧
      lineOf t (bodyStart t + m.1) ∉ declLines t :=
  mem_r3Go h

/-- Membership in the final output is membership in one of the four rule
lists. -/
theorem mem_checkModule {input : List Char} {w : Warning} :
    w ∈ checkModule input ↔
      w ∈ r1 (normalize input) ∨ w ∈ r2 (normalize input) ∨
      w ∈ r3 (normalize input) ∨ w ∈ r4 (normalize input) := by
  unfold checkModule
  rw [mem_sortW]
  simp [List.mem_append, or_assoc]

/-! ## Lemmas: the symbol tables -/

theorem findSig_eq_none {l : List Signal} {n : List Char} :
    findSig l n = none ↔ n ∉ sigNames l := by
  unfold findSig sigNames
  rw [List.find?_eq_none]
  simp

theorem portNames_not_keyword {t n : List Char} (h : n ∈ portNames t) :
    isKeyword n = false := by
  unfold portNames at h
  rcases List.mem_append.mp h with h | h
  · have := (List.mem_filter.mp h).2
    rwa [Bool.not_eq_true'] at this
  · rw [List.mem_flatMap] at h
    obtain ⟨m, _, hn⟩ := h
    have := (List.mem_filter.mp hn).2
    rwa [Bool.not_eq_true'] at this

theorem internalSignals_foldl_mem (t : List Char) :
    ∀ (ds : List (Kind × Nat × List Char)) (acc : List Signal) (s : Signal),
      s ∈ ds.foldl (insertSig t) acc →
      s ∈ acc ∨ (isKeyword s.name = false ∧ s.name ∉ portNames t) := by
  intro ds
  induction ds with
  | nil => intro acc s h; exact Or.inl h
  | cons d rest ih =>
    intro acc s h
    rcases ih _ s h with h | h
    · unfold insertSig at h
      split at h
      · exact Or.inl h
      · rename_i hcond
        rw [Bool.not_eq_true] at hcond
        simp only [Bool.or_eq_false_iff, decide_eq_false_iff_not] at hcond
        rcases List.mem_append.mp h with h | h
        · exact Or.inl h
        · rw [List.mem_singleton] at h
          subst h
          exact Or.inr ⟨hcond.1.1, hcond.1.2⟩
    · exact Or.inr h

theorem internalSignals_mem {t : List Char} {s : Signal}
    (h : s ∈ internalSignals t) : isKeyword s.name = false ∧ s.name ∉ portNames t := by
  rcases internalSignals_foldl_mem t (declTriples t) [] s h with h | h
  · simp at h
  · exact h

theorem internalSignals_foldl_nodup (t : List Char) :
    ∀ (ds : List (Kind × Nat × List Char)) (acc : List Signal),
      (sigNames acc).Nodup → (sigNames (ds.foldl (insertSig t) acc)).Nodup := by
  intro ds
  induction ds with
  | nil => intro acc h; exact h
  | cons d rest ih =>
    intro acc h
    refine ih _ ?_
    unfold insertSig
    split
    · exact h
    · rename_i hcond
      rw [Bool.not_eq_true] at hcond
      simp only [Bool.or_eq_false_iff, decide_eq_false_iff_not] at hcond
      simp only [sigNames, List.map_append, List.map_cons, List.map_nil]
      rw [List.nodup_append]
      refine ⟨h, by simp, ?_⟩
      intro a ha hb
      rw [List.mem_singleton] at hb
      subst hb
      exact hcond.2 ha

/-- The internal-signal table holds at most one record per name. -/
theorem internalSignals_nodup (t : List Char) :
    (sigNames (internalSignals t)).Nodup :=
  internalSignals_foldl_nodup t (declTriples t) [] (by simp [sigNames])

/-- The static part of step 2's insertion guard: right name, not a keyword,
not a port. -/
def declQual (t n : List Char) (d : Kind × Nat × List Char) : Bool :=
  decide (d.2.2 = n) && !isKeyword d.2.2 && !decide (d.2.2 ∈ portNames t)

theorem findSig_foldl (t n : List Char) :
    ∀ (ds : List (Kind × Nat × List Char)) (acc : List Signal),
      findSig (ds.foldl (insertSig t) acc) n =
        (findSig acc n).or
          (((ds.filter (declQual t n)).head?).map
            (fun d => ⟨d.2.2, d.1, d.2.1⟩)) := by
  intro ds
  induction ds with
  | nil => intro acc; cases h : findSig acc n <;> simp [h, Option.or_none]
  | cons d rest ih =>
    intro acc
    simp only [List.foldl_cons, List.filter_cons]
    rw [ih]
    by_cases hq : declQual t n d = true
    · rw [if_pos hq]
      unfold declQual at hq
      simp only [Bool.and_eq_true, decide_eq_true_eq, Bool.not_eq_true',
        decide_eq_false_iff_not] at hq
      obtain ⟨⟨hdn, hkw⟩, hport⟩ := hq
      subst hdn
      cases hfind : findSig acc d.2.2 with
      | some s =>
        have hmem : d.2.2 ∈ sigNames acc := by
          by_contra hn
          rw [findSig_eq_none.mpr hn] at hfind
          exact Option.noConfusion hfind
        have hins : insertSig t acc d = acc := by
          unfold insertSig
          rw [if_pos (by simp [hmem])]
        rw [hins, hfind]
        rfl
      | none =>
        have hnmem : d.2.2 ∉ sigNames acc := findSig_eq_none.mp hfind
        have hins : insertSig t acc d = acc ++ [⟨d.2.2, d.1, d.2.1⟩] := by
          unfold insertSig
          rw [if_neg (by simp [hkw, hport, hnmem])]
        rw [hins]
        unfold findSig at hfind ⊢
        rw [List.find?_append, hfind]
        simp [List.find?, Option.none_or]
    · rw [if_neg hq]
      have key : findSig (insertSig t acc d) n = findSig acc n := by
        unfold insertSig
        split
        · rfl
        · rename_i hcond
          rw [Bool.not_eq_true] at hcond
          simp only [Bool.or_eq_false_iff, decide_eq_false_iff_not] at hcond
          have hdn : d.2.2 ≠ n := by
            intro he
            apply hq
            unfold declQual
            simp [← he, hcond.1.1, hcond.1.2]
          unfold findSig
          rw [List.find?_append]
          have hone : List.find? (fun s => decide (s.name = n))
              [(⟨d.2.2, d.1, d.2.1⟩ : Signal)] = none := by
            simp [List.find?, hdn]
          rw [hone, Option.or_none]
      rw [key]

/-- The record a lookup returns comes from the textually first qualifying
declaration of that name: later redeclarations never overwrite it. -/
theorem findSig_internalSignals (t n : List Char) :
    findSig (internalSignals t) n =
      (((declTriples t).filter (declQual t n)).head?).map
        (fun d => ⟨d.2.2, d.1, d.2.1⟩) := by
  unfold internalSignals
  rw [findSig_foldl]
  rw [show findSig [] n = none from rfl, Option.none_or]

theorem effKind_wire_not_keyword {t n : List Char}
    (h : effKind t n = some Kind.wire) : isKeyword n = false := by
  unfold effKind at h
  cases hf : findSig (internalSignals t) n with
  | some s =>
    have hs := List.mem_of_find?_eq_some hf
    have hname : s.name = n := by
      have := List.find?_some hf
      simpa using this
    have := (internalSignals_mem hs).1
    rwa [hname] at this
  | none =>
    rw [hf] at h
    dsimp only at h
    by_cases hpr : n ∈ portRegNames t
    · rw [if_pos hpr] at h
      exact absurd h (by simp)
    · rw [if_neg hpr] at h
      by_cases hp : n ∈ portNames t
      · exact portNames_not_keyword hp
      · rw [if_neg hp] at h
        exact absurd h (by simp)

theorem effKind_eq_none {t n : List Char}
    (h1 : n ∉ sigNames (internalSignals t)) (h2 : n ∉ portRegNames t)
    (h3 : n ∉ portNames t) : effKind t n = none := by
  simp [effKind, findSig_eq_none.mpr h1, h2, h3]

/-! ## Lemmas: the normalizer preserves line structure -/

theorem findClose_eq {l b a : List Char} (h : findClose l = some (b, a)) :
    l = b ++ '*' :: '/' :: a := by
  induction l using findClose.induct generalizing b a with
  | case1 => simp [findClose] at h
  | case2 rest =>
    simp only [findClose, Option.some.injEq, Prod.mk.injEq] at h
    rw [← h.1, ← h.2]
    rfl
  | case3 c rest hne b' a' hfc ih =>
    rw [findClose] at h
    · rw [hfc] at h
      simp only [Option.some.injEq, Prod.mk.injEq] at h
      rw [← h.1, ← h.2, ih hfc]
      rfl
    · exact hne
  | case4 c rest hne hfc ih =>
    rw [findClose] at h
    · rw [hfc] at h
      exact absurd h (by simp)
    · exact hne

theorem countNl_stripBlockAux (fuel : Nat) (l : List Char) :
    countNl (stripBlockAux fuel l) = countNl l := by
  induction fuel, l using stripBlockAux.induct with
  | case1 l => rfl
  | case2 fuel rest inside after hfc ih =>
    have he := findClose_eq hfc
    subst he
    simp only [stripBlockAux]
    rw [hfc]
    have ih2 : (stripBlockAux fuel after).count '\n' = after.count '\n' := ih
    simp +decide [countNl, List.count_append, List.count_cons,
      List.count_replicate, ih2]
  | case3 fuel rest hfc =>
    simp only [stripBlockAux]
    rw [hfc]
  | case4 fuel c rest hne ih =>
    simp only [stripBlockAux]
    have ih2 : (stripBlockAux fuel rest).count '\n' = rest.count '\n' := ih
    simp [countNl, List.count_cons, ih2]
  | case5 fuel => rfl

theorem countNl_stripBlock (l : List Char) : countNl (stripBlock l) = countNl l :=
  countNl_stripBlockAux l.length l

theorem countNl_dropLine (l : List Char) : countNl (dropLine l) = countNl l := by
  induction l with
  | nil => rfl
  | cons c rest ih =>
    rw [dropLine]
    split
    · rfl
    · rename_i hc
      have ih2 : (dropLine rest).count '\n' = rest.count '\n' := ih
      simp [countNl, List.count_cons, ih2, Ne.symm hc]

theorem countNl_stripLineAux (fuel : Nat) (l : List Char) :
    countNl (stripLineAux fuel l) = countNl l := by
  induction fuel, l using stripLineAux.induct with
  | case1 l => rfl
  | case2 fuel rest ih =>
    simp only [stripLineAux]
    rw [ih, countNl_dropLine]
    simp +decide [countNl, List.count_cons]
  | case3 fuel c rest hne ih =>
    simp only [stripLineAux]
    have ih2 : (stripLineAux fuel rest).count '\n' = rest.count '\n' := ih
    simp [countNl, List.count_cons, ih2]
  | case4 fuel => rfl

theorem countNl_stripLine (l : List Char) : countNl (stripLine l) = countNl l :=
  countNl_stripLineAux l.length l

theorem countNl_stripComments (l : List Char) :
    countNl (stripComments l) = countNl l := by
  unfold stripComments
  rw [countNl_stripLine, countNl_stripBlock]

theorem matchLit_eq {l : List Char} {n : Nat} {r : List Char}
    (h : matchLit l = some (n, r)) :
    ∃ consumed : List Char, l = consumed ++ r ∧ consumed.length = n ∧
      countNl consumed = 0 := by
  unfold matchLit at h
  cases hd : l.dropWhile Char.isDigit with
  | nil => rw [hd] at h; exact absurd h (by simp)
  | cons q rest1 =>
    cases rest1 with
    | nil => rw [hd] at h; exact absurd h (by simp)
    | cons rc rest =>
      rw [hd] at h
      dsimp only at h
      by_cases hq : (q = Char.ofNat 39 && isRadixChar rc) = true
      · rw [if_pos hq] at h
        by_cases hlen : (rest.takeWhile isLitDigit).length = 0
        · rw [if_pos hlen] at h; exact absurd h (by simp)
        · rw [if_neg hlen] at h
          obtain ⟨hn, hr⟩ := Prod.mk.inj ((Option.some.injEq _ _).mp h)
          rw [Bool.and_eq_true, decide_eq_true_eq] at hq
          refine ⟨l.takeWhile Char.isDigit ++ q :: rc :: rest.takeWhile isLitDigit,
            ?_, ?_, ?_⟩
          · rw [← hr]
            conv_lhs => rw [← List.takeWhile_append_dropWhile (p := Char.isDigit) (l := l)]
            rw [hd]
            simp [List.append_assoc, List.takeWhile_append_dropWhile]
          · rw [← hn]
            simp [List.length_append]
            omega
          · rw [countNl, List.count_eq_zero]
            intro hmem
            rcases List.mem_append.mp hmem with hmem | hmem
            · have := List.mem_takeWhile_imp hmem
              exact absurd this (by decide)
            · rcases List.mem_cons.mp hmem with hmem | hmem
              · rw [← hmem] at hq
                exact absurd hq.1 (by decide)
              · rcases List.mem_cons.mp hmem with hmem | hmem
                · rw [← hmem] at hq
                  exact absurd hq.2 (by decide)
                · have := List.mem_takeWhile_imp hmem
                  exact absurd this (by decide)
      · rw [if_neg hq] at h
        exact absurd h (by simp)

theorem stripLitsAux_spec (fuel : Nat) (l : List Char) :
    (stripLitsAux fuel l).length = l.length ∧
    ∀ pos, countNl ((stripLitsAux fuel l).take pos) = countNl (l.take pos) := by
  induction fuel, l using stripLitsAux.induct with
  | case1 l => exact ⟨rfl, fun _ => rfl⟩
  | case2 fuel l n r hm ih =>
    simp only [stripLitsAux]
    rw [hm]
    obtain ⟨consumed, hl, hlen, hnl⟩ := matchLit_eq hm
    obtain ⟨ihlen, ihpos⟩ := ih
    constructor
    · rw [List.length_append, List.length_replicate, ihlen, hl,
        List.length_append, hlen]
    · intro pos
      conv_rhs => rw [hl]
      rw [List.take_append_eq_append_take, List.take_append_eq_append_take,
        countNl, countNl, List.count_append, List.count_append,
        List.length_replicate, hlen]
      have h1 : ((List.replicate n ' ').take pos).count '\n' = 0 := by
        rw [List.take_replicate]
        simp +decide [List.count_replicate]
      have h2 : (consumed.take pos).count '\n' = 0 :=
        Nat.le_zero.mp (hnl ▸ (List.take_sublist pos consumed).count_le '\n')
      rw [h1, h2]
      have h3 := ihpos (pos - n)
      rw [countNl, countNl] at h3
      rw [h3]
  | case3 fuel hm =>
    exact ⟨rfl, fun _ => rfl⟩
  | case4 fuel c rest hm ih =>
    simp only [stripLitsAux]
    rw [hm]
    obtain ⟨ihlen, ihpos⟩ := ih
    refine ⟨by simp [ihlen], ?_⟩
    intro pos
    cases pos with
    | zero => rfl
    | succ p =>
      rw [List.take_succ_cons, List.take_succ_cons, countNl, countNl,
        List.count_cons, List.count_cons]
      have h3 := ihpos p
      rw [countNl, countNl] at h3
      rw [h3]

theorem stripLits_length (l : List Char) : (stripLits l).length = l.length :=
  (stripLitsAux_spec l.length l).1

theorem countNl_take_stripLits (l : List Char) (pos : Nat) :
    countNl ((stripLits l).take pos) = countNl (l.take pos) :=
  (stripLitsAux_spec l.length l).2 pos

theorem lineOf_stripLits (l : List Char) (pos : Nat) :
    lineOf (stripLits l) pos = lineOf l pos := by
  unfold lineOf
  rw [countNl_take_stripLits]

theorem countNl_stripLits (l : List Char) : countNl (stripLits l) = countNl l := by
  calc countNl (stripLits l)
      = countNl ((stripLits l).take (stripLits l).length) := by rw [List.take_length]
    _ = countNl ((stripLits l).take l.length) := by rw [stripLits_length]
    _ = countNl (l.take l.length) := countNl_take_stripLits l l.length
    _ = countNl l := by rw [List.take_length]

theorem countNl_normalize (l : List Char) : countNl (normalize l) = countNl l := by
  unfold normalize
  rw [countNl_stripLits, countNl_stripComments]

/-! ## Lemmas: the undefined-reference walk and the reference counter -/

/-- The body occurrences of name `n` outside declaration lines: the
candidates rule R3 considers and exactly what rule R4's counter counts. -/
def r3occs (t : List Char) (n : List Char) : List (Nat × List Char) :=
  (identsIn (bodyText t)).filter (fun m =>
    decide (m.2 = n) && !decide (lineOf t (bodyStart t + m.1) ∈ declLines t))

theorem refCount_eq_r3occs (t n : List Char) : refCount t n = (r3occs t n).length :=
  rfl

theorem r3Go_filter_of_seen {t : List Char} {bs : Nat} {n : List Char} :
    ∀ {idents : List (Nat × List Char)} {seen : List (List Char)}, n ∈ seen →
      (r3Go t bs idents seen).filter (fun w => decide (w.message = r3msg n)) = [] := by
  intro idents
  induction idents with
  | nil => intro seen _; rfl
  | cons m rest ih =>
    intro seen hseen
    rw [r3Go]
    split
    · exact ih hseen
    · rename_i hcond
      split
      · exact ih hseen
      · rw [List.filter_cons]
        have hmn : ¬ m.2 = n := by
          intro he
          exact hcond (by simp [he, hseen])
        have hfalse : decide ((⟨lineOf t (bs + m.1), r3msg m.2⟩ : Warning).message
            = r3msg n) = false := by
          simp only [decide_eq_false_iff_not]
          intro hmsg
          exact hmn (r3msg_inj hmsg)
        rw [hfalse]
        simp only [Bool.false_eq_true, if_false]
        exact ih (List.mem_cons_of_mem m.2 hseen)

theorem r3Go_filter {t : List Char} {bs : Nat} {n : List Char}
    (hkw : isKeyword n = false) (hkn : allKnown t n = false) :
    ∀ {idents : List (Nat × List Char)} {seen : List (List Char)}, n ∉ seen →
      (r3Go t bs idents seen).filter (fun w => decide (w.message = r3msg n)) =
        match (idents.filter (fun m => decide (m.2 = n) &&
            !decide (lineOf t (bs + m.1) ∈ declLines t))).head? with
        | some m => [⟨lineOf t (bs + m.1), r3msg n⟩]
        | none => [] := by
  intro idents
  induction idents with
  | nil => intro seen _; rfl
  | cons m rest ih =>
    intro seen hseen
    rw [r3Go]
    by_cases hmn : m.2 = n
    · rw [if_neg (by simp [hmn, hkw, hkn, hseen])]
      by_cases hline : lineOf t (bs + m.1) ∈ declLines t
      · rw [if_pos hline, ih hseen, List.filter_cons,
          show (decide (m.2 = n) &&
            !decide (lineOf t (bs + m.1) ∈ declLines t)) = false by simp [hline]]
        simp only [Bool.false_eq_true, if_false]
      · rw [if_neg hline, List.filter_cons,
          show decide ((⟨lineOf t (bs + m.1), r3msg m.2⟩ : Warning).message
            = r3msg n) = true by simp [hmn],
          r3Go_filter_of_seen (List.mem_cons.mpr (Or.inl hmn.symm)),
          List.filter_cons,
          show (decide (m.2 = n) &&
            !decide (lineOf t (bs + m.1) ∈ declLines t)) = true by simp [hmn, hline]]
        simp [hmn]
    · have hfilt : (decide (m.2 = n) &&
          !decide (lineOf t (bs + m.1) ∈ declLines t)) = false := by simp [hmn]
      by_cases hg : (isKeyword m.2 || allKnown t m.2 || decide (m.2 ∈ seen)) = true
      · rw [if_pos hg, ih hseen, List.filter_cons, hfilt]
        simp only [Bool.false_eq_true, if_false]
      · rw [if_neg hg]
        by_cases hline : lineOf t (bs + m.1) ∈ declLines t
        · rw [if_pos hline, ih hseen, List.filter_cons, hfilt]
          simp only [Bool.false_eq_true, if_false]
        · rw [if_neg hline, List.filter_cons,
            show decide ((⟨lineOf t (bs + m.1), r3msg m.2⟩ : Warning).message
              = r3msg n) = false by
                simp only [decide_eq_false_iff_not]
                intro hmsg
                exact hmn (r3msg_inj hmsg)]
          simp only [Bool.false_eq_true, if_false]
          rw [ih (by
            intro hn
            rcases List.mem_cons.mp hn with hn | hn
            · exact hmn hn.symm
            · exact hseen hn), List.filter_cons, hfilt]
          simp only [Bool.false_eq_true, if_false]

/-- What rule R3 emits about a name, in terms of the candidate list. -/
theorem r3_filter {t n : List Char} (hkw : isKeyword n = false)
    (hkn : allKnown t n = false) :
    (r3 t).filter (fun w => decide (w.message = r3msg n)) =
      match (r3occs t n).head? with
      | some m => [⟨lineOf t (bodyStart t + m.1), r3msg n⟩]
      | none => [] := by
  unfold r3 r3occs
  exact r3Go_filter hkw hkn (by simp)

/-- With distinct names in the table, the signal with zero references
produces its warning exactly once in rule R4's list. -/
theorem count_filterMap_r4 (t : List Char) (s : Signal)
    (h0 : refCount t s.name = 0) :
    ∀ l : List Signal, (sigNames l).Nodup → s ∈ l →
      (l.filterMap (fun s' => if refCount t s'.name = 0
          then some (⟨s'.line, r4msg s'.name⟩ : Warning) else none)).count
        ⟨s.line, r4msg s.name⟩ = 1 := by
  intro l
  induction l with
  | nil => intro _ h; simp at h
  | cons x xs ih =>
    intro hnd hmem
    have hnd' : (sigNames xs).Nodup := by
      simp only [sigNames, List.map_cons] at hnd
      exact (List.nodup_cons.mp hnd).2
    have hx_not_in : x.name ∉ sigNames xs := by
      simp only [sigNames, List.map_cons] at hnd
      exact (List.nodup_cons.mp hnd).1
    rw [List.filterMap_cons]
    rcases List.mem_cons.mp hmem with he | hmem2
    · subst he
      rw [if_pos h0]
      have hrest : (xs.filterMap (fun s' => if refCount t s'.name = 0
          then some (⟨s'.line, r4msg s'.name⟩ : Warning) else none)).count
          (⟨s.line, r4msg s.name⟩ : Warning) = 0 := by
        rw [List.count_eq_zero]
        intro hw
        rw [List.mem_filterMap] at hw
        obtain ⟨s', hs', hf⟩ := hw
        split at hf
        · have hww := (Option.some.injEq _ _).mp hf
          have hname : s'.name = s.name :=
            r4msg_inj (congrArg Warning.message hww)
          exact hx_not_in (hname ▸ List.mem_map_of_mem Signal.name hs')
        · exact absurd hf (by simp)
      simp [List.count_cons, hrest]
    · have hsname : s.name ∈ sigNames xs := List.mem_map_of_mem Signal.name hmem2
      have hxname : x.name ≠ s.name := fun he => hx_not_in (he ▸ hsname)
      have hterm := ih hnd' hmem2
      split
      · exact hterm
      · rename_i b heq
        split at heq
        · have hb := (Option.some.injEq _ _).mp heq
          rw [← hb, List.count_cons, hterm]
          have hne : ¬ ((⟨s.line, r4msg s.name⟩ : Warning) =
              ⟨x.line, r4msg x.name⟩) := by
            intro he
            exact hxname (r4msg_inj (congrArg Warning.message he)).symm
          simp [Warning.mk.injEq]
          intro _ hmsg
          exact hxname (r4msg_inj hmsg)
        · exact absurd heq (by simp)

/-! ## Telling messages of different rules apart -/

theorem r1msg_ne_r2msg {n m bk : List Char} : r1msg n ≠ r2msg m bk := by
  intro h
  have e : lastN (r1msg n) 3 = lastN (r2msg m bk) 3 := by rw [h]
  rw [lastN_r1msg, lastN_r2msg] at e
  exact absurd e (by decide)

theorem r1msg_ne_r3msg {n m : List Char} : r1msg n ≠ r3msg m := by
  intro h
  have e : lastN (r1msg n) 3 = lastN (r3msg m) 3 := by rw [h]
  rw [lastN_r1msg, lastN_r3msg] at e
  exact absurd e (by decide)

theorem r1msg_ne_r4msg {n m : List Char} : r1msg n ≠ r4msg m := by
  intro h
  have e : lastN (r1msg n) 3 = lastN (r4msg m) 3 := by rw [h]
  rw [lastN_r1msg, lastN_r4msg] at e
  exact absurd e (by decide)

theorem r2msg_ne_r3msg {n bk m : List Char} : r2msg n bk ≠ r3msg m := by
  intro h
  have e : lastN (r2msg n bk) 3 = lastN (r3msg m) 3 := by rw [h]
  rw [lastN_r2msg, lastN_r3msg] at e
  exact absurd e (by decide)

theorem r2msg_ne_r4msg {n bk m : List Char} : r2msg n bk ≠ r4msg m := by
  intro h
  have e : lastN (r2msg n bk) 3 = lastN (r4msg m) 3 := by rw [h]
  rw [lastN_r2msg, lastN_r4msg] at e
  exact absurd e (by decide)

theorem r3msg_ne_r4msg {n m : List Char} : r3msg n ≠ r4msg m := by
  intro h
  have e : lastN (r3msg n) 3 = lastN (r4msg m) 3 := by rw [h]
  rw [lastN_r3msg, lastN_r4msg] at e
  exact absurd e (by decide)

/-! ## The claims -/

/-- C1 (R1, assign-to-reg): for every occurrence of `assign <identifier>` in
the normalized text whose identifier's effective kind is `Reg`, the result
contains the R1 warning at the line of the `assign` keyword; and when a
name's effective kind is not `Reg`, no warning with its R1 message exists at
any line. -/
theorem C1_assign_to_reg (input : List Char) :
    (∀ m ∈ assignMatches (normalize input),
      effKind (normalize input) m.2 = some Kind.reg →
      Warning.mk (lineOf (normalize input) m.1) (r1msg m.2) ∈ checkModule input) ∧
    (∀ n : List Char, effKind (normalize input) n ≠ some Kind.reg →
      ∀ ln : Nat, Warning.mk ln (r1msg n) ∉ checkModule input) := by
  constructor
  · intro m hm hk
    rw [mem_checkModule]
    exact Or.inl (mem_r1.mpr ⟨m, hm, hk, rfl⟩)
  · intro n hk ln hmem
    rw [mem_checkModule] at hmem
    rcases hmem with h | h | h | h
    · obtain ⟨m, _, hkind, hw⟩ := mem_r1.mp h
      rw [r1msg_inj (congrArg Warning.message hw)] at hk
      exact hk hkind
    · obtain ⟨bm, _, pm, _, _, _, hw⟩ := mem_r2.mp h
      exact r1msg_ne_r2msg (congrArg Warning.message hw)
    · obtain ⟨m, _, hw, _⟩ := mem_r3 h
      exact r1msg_ne_r3msg (congrArg Warning.message hw)
    · obtain ⟨s, _, _, hw⟩ := mem_r4.mp h
      exact r1msg_ne_r4msg (congrArg Warning.message hw)

def c1ex : List Char := "module m; reg r; assign r = d; endmodule".data

/-- C1 witness: a concrete `assign` driving an internal `reg`. -/
theorem C1_assign_to_reg_witness :
    ((17, "r".data) ∈ assignMatches (normalize c1ex) ∧
      effKind (normalize c1ex) "r".data = some Kind.reg) ∧
    Warning.mk (lineOf (normalize c1ex) 17) (r1msg "r".data) ∈ checkModule c1ex :=
  ⟨⟨by decide, by decide⟩,
    (C1_assign_to_reg c1ex).1 (17, "r".data) (by decide) (by decide)⟩

/-- C2 (R2, procedural-assignment-to-wire): for every `always`/`initial`
block — running from its keyword to the next `always`/`initial`/`assign`/
`endmodule` or end of text — and every procedural-assignment l-value inside
it whose identifier's effective kind is `Wire`, the result contains the R2
warning at the line of the l-value, with the block's introducing keyword. -/
theorem C2_proc_assign_to_wire (input : List Char) :
    ∀ bm ∈ blockMatches (normalize input),
      ∀ pm ∈ procMatches (slice (normalize input) bm.1
          (firstGreater (endMarkers (normalize input)) bm.1 (normalize input).length)),
        effKind (normalize input) pm.2 = some Kind.wire →
        Warning.mk (lineOf (normalize input) (bm.1 + pm.1)) (r2msg pm.2 bm.2) ∈
          checkModule input := by
  intro bm hbm pm hpm hk
  rw [mem_checkModule]
  exact Or.inr (Or.inl (mem_r2.mpr
    ⟨bm, hbm, pm, hpm, effKind_wire_not_keyword hk, hk, rfl⟩))

def c2ex : List Char := "module m(output o); wire w; always @(c) w <= 1; endmodule".data

/-- C2 witness: a concrete nonblocking assignment to a `wire` inside an
`always` block. -/
theorem C2_proc_assign_to_wire_witness :
    ((28, "always".data) ∈ blockMatches (normalize c2ex) ∧
      (12, "w".data) ∈ procMatches (slice (normalize c2ex) 28
        (firstGreater (endMarkers (normalize c2ex)) 28 (normalize c2ex).length)) ∧
      effKind (normalize c2ex) "w".data = some Kind.wire) ∧
    Warning.mk (lineOf (normalize c2ex) (28 + 12)) (r2msg "w".data "always".data) ∈
      checkModule c2ex :=
  ⟨⟨by decide, by decide, by decide⟩,
    C2_proc_assign_to_wire c2ex (28, "always".data) (by decide)
      (12, "w".data) (by decide) (by decide)⟩

/-- C3 (R3, undeclared reference): for a name that is not a keyword and not
known (port/internal/parameter), the output's warnings carrying its R3
message are exactly one warning at the line of the first body occurrence
outside declaration lines — and none when no such occurrence exists. -/
theorem C3_undeclared_reference (input : List Char) (n : List Char)
    (hkw : isKeyword n = false) (hkn : allKnown (normalize input) n = false) :
    (checkModule input).filter (fun w => decide (w.message = r3msg n)) =
      match (r3occs (normalize input) n).head? with
      | some m => [⟨lineOf (normalize input) (bodyStart (normalize input) + m.1),
          r3msg n⟩]
      | none => [] := by
  have h1 : (r1 (normalize input)).filter
      (fun w => decide (w.message = r3msg n)) = [] := by
    rw [List.filter_eq_nil_iff]
    intro w hw
    obtain ⟨m, _, _, hw'⟩ := mem_r1.mp hw
    simp only [decide_eq_true_eq]
    rw [hw']
    exact r1msg_ne_r3msg
  have h2 : (r2 (normalize input)).filter
      (fun w => decide (w.message = r3msg n)) = [] := by
    rw [List.filter_eq_nil_iff]
    intro w hw
    obtain ⟨bm, _, pm, _, _, _, hw'⟩ := mem_r2.mp hw
    simp only [decide_eq_true_eq]
    rw [hw']
    exact r2msg_ne_r3msg
  have h4 : (r4 (normalize input)).filter
      (fun w => decide (w.message = r3msg n)) = [] := by
    rw [List.filter_eq_nil_iff]
    intro w hw
    obtain ⟨s, _, _, hw'⟩ := mem_r4.mp hw
    simp only [decide_eq_true_eq]
    rw [hw']
    exact fun h => r3msg_ne_r4msg h.symm
  have hconcat : (r1 (normalize input) ++ r2 (normalize input) ++ r3 (normalize input)
      ++ r4 (normalize input)).filter (fun w => decide (w.message = r3msg n)) =
      (r3 (normalize input)).filter (fun w => decide (w.message = r3msg n)) := by
    simp only [List.filter_append]
    rw [h1, h2, h4]
    simp
  have hperm : List.Perm
      ((checkModule input).filter (fun w => decide (w.message = r3msg n)))
      ((r3 (normalize input)).filter (fun w => decide (w.message = r3msg n))) := by
    rw [← hconcat]
    exact (sortW_perm _).filter _
  rw [r3_filter hkw hkn] at hperm
  cases hocc : (r3occs (normalize input) n).head? with
  | some m =>
    rw [hocc] at hperm
    exact List.perm_singleton.mp hperm
  | none =>
    rw [hocc] at hperm
    exact hperm.eq_nil

def c3ex : List Char := "module m(output o);\nassign o = zz;\nendmodule\n".data

/-- C3 witness: a concrete undeclared reference warned exactly once at its
first occurrence. -/
theorem C3_undeclared_reference_witness :
    (isKeyword "zz".data = false ∧ allKnown (normalize c3ex) "zz".data = false) ∧
    (checkModule c3ex).filter (fun w => decide (w.message = r3msg "zz".data)) =
      match (r3occs (normalize c3ex) "zz".data).head? with
      | some m => [⟨lineOf (normalize c3ex) (bodyStart (normalize c3ex) + m.1),
          r3msg "zz".data⟩]
      | none => [] :=
  ⟨⟨by decide, by decide⟩,
    C3_undeclared_reference c3ex "zz".data (by decide) (by decide)⟩

/-- C4 (R4, unreferenced internal signal), amended: an internal signal with
zero counted references yields exactly one R4 warning, at its recorded
declaration line; one with references yields none; and a name that is not in
the internal-signal table — every port, and every parameter not also
declared as an internal signal — never yields an R4 warning. -/
theorem C4_unreferenced_internal (input : List Char) :
    (∀ s ∈ internalSignals (normalize input),
      refCount (normalize input) s.name = 0 →
      (checkModule input).count ⟨s.line, r4msg s.name⟩ = 1) ∧
    (∀ s ∈ internalSignals (normalize input),
      refCount (normalize input) s.name ≠ 0 →
      ∀ ln : Nat, Warning.mk ln (r4msg s.name) ∉ checkModule input) ∧
    (∀ n : List Char, n ∉ sigNames (internalSignals (normalize input)) →
      ∀ ln : Nat, Warning.mk ln (r4msg n) ∉ checkModule input) := by
  refine ⟨?_, ?_, ?_⟩
  · intro s hs h0
    have hperm : List.Perm (checkModule input)
        (r1 (normalize input) ++ r2 (normalize input) ++ r3 (normalize input)
          ++ r4 (normalize input)) := sortW_perm _
    rw [hperm.count_eq]
    simp only [List.count_append]
    rw [show (r1 (normalize input)).count ⟨s.line, r4msg s.name⟩ = 0 by
        rw [List.count_eq_zero]
        intro hw
        obtain ⟨m, _, _, hw'⟩ := mem_r1.mp hw
        exact r1msg_ne_r4msg (congrArg Warning.message hw').symm,
      show (r2 (normalize input)).count ⟨s.line, r4msg s.name⟩ = 0 by
        rw [List.count_eq_zero]
        intro hw
        obtain ⟨bm, _, pm, _, _, _, hw'⟩ := mem_r2.mp hw
        exact r2msg_ne_r4msg (congrArg Warning.message hw').symm,
      show (r3 (normalize input)).count ⟨s.line, r4msg s.name⟩ = 0 by
        rw [List.count_eq_zero]
        intro hw
        obtain ⟨m, _, hw', _⟩ := mem_r3 hw
        exact r3msg_ne_r4msg (congrArg Warning.message hw').symm]
    have := count_filterMap_r4 (normalize input) s h0 (internalSignals (normalize input))
      (internalSignals_nodup _) hs
    unfold r4
    omega
  · intro s hs hne ln hmem
    rw [mem_checkModule] at hmem
    rcases hmem with h | h | h | h
    · obtain ⟨m, _, _, hw⟩ := mem_r1.mp h
      exact r1msg_ne_r4msg (congrArg Warning.message hw).symm
    · obtain ⟨bm, _, pm, _, _, _, hw⟩ := mem_r2.mp h
      exact r2msg_ne_r4msg (congrArg Warning.message hw).symm
    · obtain ⟨m, _, hw, _⟩ := mem_r3 h
      exact r3msg_ne_r4msg (congrArg Warning.message hw).symm
    · obtain ⟨s', _, h0', hw⟩ := mem_r4.mp h
      have hname := r4msg_inj (congrArg Warning.message hw)
      rw [← hname] at h0'
      exact hne h0'
  · intro n hn ln hmem
    rw [mem_checkModule] at hmem
    rcases hmem with h | h | h | h
    · obtain ⟨m, _, _, hw⟩ := mem_r1.mp h
      exact r1msg_ne_r4msg (congrArg Warning.message hw).symm
    · obtain ⟨bm, _, pm, _, _, _, hw⟩ := mem_r2.mp h
      exact r2msg_ne_r4msg (congrArg Warning.message hw).symm
    · obtain ⟨m, _, hw, _⟩ := mem_r3 h
      exact r3msg_ne_r4msg (congrArg Warning.message hw).symm
    · obtain ⟨s', hs', _, hw⟩ := mem_r4.mp h
      have hname := r4msg_inj (congrArg Warning.message hw)
      rw [hname] at hn
      exact hn (List.mem_map_of_mem Signal.name hs')

def c4cex : List Char := "module m; reg x; parameter x = 1; endmodule".data

/-- C4 counterexample: `x` is a ParamSet name, yet the result carries an R4
warning for it (the same name is also recorded as an internal `reg` with no
references). -/
theorem C4_unreferenced_internal_counterexample :
    "x".data ∈ paramNames (normalize c4cex) ∧
    Warning.mk 1 (r4msg "x".data) ∈ checkModule c4cex := by
  constructor
  · decide
  · decide

def c4ex : List Char := "module m(input d, output o);\nwire u;\nassign o = d;\nendmodule\n".data

/-- C4 witness: a concrete unreferenced internal wire warned exactly once at
its declaration line, and a non-internal name never warned. -/
theorem C4_unreferenced_internal_witness :
    ((⟨"u".data, Kind.wire, 2⟩ : Signal) ∈ internalSignals (normalize c4ex) ∧
      refCount (normalize c4ex) "u".data = 0 ∧
      "d".data ∉ sigNames (internalSignals (normalize c4ex))) ∧
    (checkModule c4ex).count ⟨2, r4msg "u".data⟩ = 1 ∧
    Warning.mk 3 (r4msg "d".data) ∉ checkModule c4ex :=
  ⟨⟨by decide, by decide, by decide⟩,
    (C4_unreferenced_internal c4ex).1 ⟨"u".data, Kind.wire, 2⟩ (by decide) (by decide),
    (C4_unreferenced_internal c4ex).2.2 "d".data (by decide) 3⟩

/-- C5 (Kind Resolver precedence): the effective kind is the recorded kind
of an internal signal when one exists; otherwise `Reg` for a PortRegSet
name; otherwise `Wire` for a port (no explicit `reg` qualifier defaults to
wire); otherwise none. -/
theorem C5_kind_resolver (input : List Char) (n : List Char) :
    (∀ s : Signal, findSig (internalSignals (normalize input)) n = some s →
      effKind (normalize input) n = some s.kind) ∧
    (findSig (internalSignals (normalize input)) n = none →
      n ∈ portRegNames (normalize input) →
      effKind (normalize input) n = some Kind.reg) ∧
    (findSig (internalSignals (normalize input)) n = none →
      n ∉ portRegNames (normalize input) → n ∈ portNames (normalize input) →
      effKind (normalize input) n = some Kind.wire) ∧
    (findSig (internalSignals (normalize input)) n = none →
      n ∉ portRegNames (normalize input) → n ∉ portNames (normalize input) →
      effKind (normalize input) n = none) := by
  refine ⟨?_, ?_, ?_, ?_⟩
  · intro s h
    simp [effKind, h]
  · intro h hpr
    simp [effKind, h, hpr]
  · intro h hpr hp
    simp [effKind, h, hpr, hp]
  · intro h hpr hp
    simp [effKind, h, hpr, hp]

def c5ex : List Char := "module m(input a, output reg q); wire w; assign w = a; endmodule".data

/-- C5 witness: all four resolution cases on one concrete module. -/
theorem C5_kind_resolver_witness :
    (findSig (internalSignals (normalize c5ex)) "w".data =
        some ⟨"w".data, Kind.wire, 1⟩ ∧
      findSig (internalSignals (normalize c5ex)) "q".data = none ∧
      "q".data ∈ portRegNames (normalize c5ex) ∧
      findSig (internalSignals (normalize c5ex)) "a".data = none ∧
      "a".data ∉ portRegNames (normalize c5ex) ∧
      "a".data ∈ portNames (normalize c5ex) ∧
      findSig (internalSignals (normalize c5ex)) "zz".data = none ∧
      "zz".data ∉ portRegNames (normalize c5ex) ∧
      "zz".data ∉ portNames (normalize c5ex)) ∧
    effKind (normalize c5ex) "w".data = some Kind.wire ∧
    effKind (normalize c5ex) "q".data = some Kind.reg ∧
    effKind (normalize c5ex) "a".data = some Kind.wire ∧
    effKind (normalize c5ex) "zz".data = none :=
  ⟨⟨by decide, by decide, by decide, by decide, by decide, by decide, by decide,
      by decide, by decide⟩,
    (C5_kind_resolver c5ex "w".data).1 ⟨"w".data, Kind.wire, 1⟩ (by decide),
    (C5_kind_resolver c5ex "q".data).2.1 (by decide) (by decide),
    (C5_kind_resolver c5ex "a".data).2.2.1 (by decide) (by decide) (by decide),
    (C5_kind_resolver c5ex "zz".data).2.2.2 (by decide) (by decide) (by decide)⟩

/-- C6 (Normalizer line preservation): comment stripping preserves the
newline count, the whole pipeline preserves the newline count, and literal
blanking preserves length and the line number of every character position. -/
theorem C6_normalizer_line_preservation :
    (∀ l : List Char, countNl (stripComments l) = countNl l) ∧
    (∀ l : List Char, countNl (normalize l) = countNl l) ∧
    (∀ l : List Char, (stripLits l).length = l.length) ∧
    (∀ (l : List Char) (pos : Nat), lineOf (stripLits l) pos = lineOf l pos) :=
  ⟨countNl_stripComments, countNl_normalize, stripLits_length, lineOf_stripLits⟩

/-- C7 (First declaration wins): the internal-signal table has at most one
record per name, and a lookup returns the record built from the textually
first qualifying declaration triple — later redeclarations are ignored. -/
theorem C7_first_declaration_wins (input : List Char) :
    (sigNames (internalSignals (normalize input))).Nodup ∧
    ∀ n : List Char, findSig (internalSignals (normalize input)) n =
      (((declTriples (normalize input)).filter (declQual (normalize input) n)).head?).map
        (fun d => ⟨d.2.2, d.1, d.2.1⟩) :=
  ⟨internalSignals_nodup _, fun n => findSig_internalSignals _ n⟩

/-- C8 amended: the output is sorted by ascending line and is stable — at
each line number the sub-sequence equals the insertion-order sub-sequence of
R1 ++ R2 ++ R3 ++ R4.  (The claim's merge-order-insignificance clause fails;
see the counterexample.) -/
theorem C8_sorted_stable (input : List Char) :
    (checkModule input).Pairwise (fun a b => a.line ≤ b.line) ∧
    ∀ k : Nat, (checkModule input).filter (fun w => decide (w.line = k)) =
      (r1 (normalize input) ++ r2 (normalize input) ++ r3 (normalize input)
        ++ r4 (normalize input)).filter (fun w => decide (w.line = k)) :=
  ⟨sortW_pairwise _, fun k => sortW_filter _ k⟩

def c8ex : List Char :=
  "module m(input c, input w1, output reg r1); always @(c) w1 <= c; assign r1 = c; endmodule".data

/-- C8 counterexample: an R1 and an R2 warning share a line, so swapping the
conceptual merge order of the rule lists changes the stable-sorted result. -/
theorem C8_sorted_stable_counterexample :
    checkModule c8ex =
      sortW (r1 (normalize c8ex) ++ r2 (normalize c8ex) ++ r3 (normalize c8ex)
        ++ r4 (normalize c8ex)) ∧
    sortW (r2 (normalize c8ex) ++ r1 (normalize c8ex) ++ r3 (normalize c8ex)
        ++ r4 (normalize c8ex)) ≠
      sortW (r1 (normalize c8ex) ++ r2 (normalize c8ex) ++ r3 (normalize c8ex)
        ++ r4 (normalize c8ex)) := by
  constructor
  · rfl
  · decide

/-- C9 amended: a ParamSet name never receives an R3 undeclared-reference
warning (parameters are always known names); and a parameter name that is
not also a port, port-reg or internal-signal name never receives an R1, R2
or R4 warning. -/
theorem C9_parameter_exemption (input : List Char) (n : List Char)
    (hp : n ∈ paramNames (normalize input)) :
    (∀ ln : Nat, Warning.mk ln (r3msg n) ∉ checkModule input) ∧
    (n ∉ sigNames (internalSignals (normalize input)) →
      n ∉ portRegNames (normalize input) →
      n ∉ portNames (normalize input) →
      ∀ ln : Nat,
        Warning.mk ln (r1msg n) ∉ checkModule input ∧
        (∀ bk : List Char, bk = "always".data ∨ bk = "initial".data →
          Warning.mk ln (r2msg n bk) ∉ checkModule input) ∧
        Warning.mk ln (r4msg n) ∉ checkModule input) := by
  constructor
  · intro ln hmem
    rw [mem_checkModule] at hmem
    rcases hmem with h | h | h | h
    · obtain ⟨m, _, _, hw⟩ := mem_r1.mp h
      exact r1msg_ne_r3msg (congrArg Warning.message hw).symm
    · obtain ⟨bm, _, pm, _, _, _, hw⟩ := mem_r2.mp h
      exact r2msg_ne_r3msg (congrArg Warning.message hw).symm
    · obtain ⟨m, _, hw, hkw, hkn, _⟩ := mem_r3 h
      have hnm : n = m.2 := r3msg_inj (congrArg Warning.message hw)
      rw [← hnm] at hkn
      rw [show allKnown (normalize input) n = true by simp [allKnown, hp]] at hkn
      exact absurd hkn (by decide)
    · obtain ⟨s, _, _, hw⟩ := mem_r4.mp h
      exact r3msg_ne_r4msg (congrArg Warning.message hw)
  · intro h1 h2 h3 ln
    have hek : effKind (normalize input) n = none := effKind_eq_none h1 h2 h3
    refine ⟨?_, ?_, ?_⟩
    · intro hmem
      rw [mem_checkModule] at hmem
      rcases hmem with h | h | h | h
      · obtain ⟨m, _, hkind, hw⟩ := mem_r1.mp h
        rw [r1msg_inj (congrArg Warning.message hw)] at hek
        rw [hek] at hkind
        exact Option.noConfusion hkind
      · obtain ⟨bm, _, pm, _, _, _, hw⟩ := mem_r2.mp h
        exact r1msg_ne_r2msg (congrArg Warning.message hw)
      · obtain ⟨m, _, hw, _⟩ := mem_r3 h
        exact r1msg_ne_r3msg (congrArg Warning.message hw)
      · obtain ⟨s, _, _, hw⟩ := mem_r4.mp h
        exact r1msg_ne_r4msg (congrArg Warning.message hw)
    · intro bk hbk hmem
      rw [mem_checkModule] at hmem
      rcases hmem with h | h | h | h
      · obtain ⟨m, _, _, hw⟩ := mem_r1.mp h
        exact r1msg_ne_r2msg (congrArg Warning.message hw).symm
      · obtain ⟨bm, hbm, pm, _, _, hkind, hw⟩ := mem_r2.mp h
        obtain ⟨hnm, -⟩ := r2msg_inj hbk (blockMatches_kind hbm)
          (congrArg Warning.message hw)
        rw [← hnm] at hkind
        rw [hek] at hkind
        exact Option.noConfusion hkind
      · obtain ⟨m, _, hw, _⟩ := mem_r3 h
        exact r2msg_ne_r3msg (congrArg Warning.message hw)
      · obtain ⟨s, _, _, hw⟩ := mem_r4.mp h
        exact r2msg_ne_r4msg (congrArg Warning.message hw)
    · intro hmem
      rw [mem_checkModule] at hmem
      rcases hmem with h | h | h | h
      · obtain ⟨m, _, _, hw⟩ := mem_r1.mp h
        exact r1msg_ne_r4msg (congrArg Warning.message hw).symm
      · obtain ⟨bm, _, pm, _, _, _, hw⟩ := mem_r2.mp h
        exact r2msg_ne_r4msg (congrArg Warning.message hw).symm
      · obtain ⟨m, _, hw, _⟩ := mem_r3 h
        exact r3msg_ne_r4msg (congrArg Warning.message hw).symm
      · obtain ⟨s', hs', _, hw⟩ := mem_r4.mp h
        have hname := r4msg_inj (congrArg Warning.message hw)
        rw [hname] at h1
        exact h1 (List.mem_map_of_mem Signal.name hs')

def c9cex : List Char := "module m; reg x; parameter x = 1; assign x = y; endmodule".data

/-- C9 counterexample: `x` is a ParamSet name, yet the result carries an R1
warning for it (the same name is also an internal `reg` driven by
`assign`). -/
theorem C9_parameter_exemption_counterexample :
    "x".data ∈ paramNames (normalize c9cex) ∧
    Warning.mk 1 (r1msg "x".data) ∈ checkModule c9cex := by
  constructor
  · decide
  · decide

def c9ex : List Char := "module m(output o); parameter P = 2; assign o = P; endmodule".data

/-- C9 witness: a pure parameter receives no warning of any rule, and even
the counterexample's duplicated ParamSet name receives no R3 warning. -/
theorem C9_parameter_exemption_witness :
    ("P".data ∈ paramNames (normalize c9ex) ∧
      "P".data ∉ sigNames (internalSignals (normalize c9ex)) ∧
      "P".data ∉ portRegNames (normalize c9ex) ∧
      "P".data ∉ portNames (normalize c9ex) ∧
      "x".data ∈ paramNames (normalize c9cex)) ∧
    (∀ ln : Nat, Warning.mk ln (r3msg "P".data) ∉ checkModule c9ex) ∧
    (Warning.mk 1 (r1msg "P".data) ∉ checkModule c9ex ∧
      (∀ bk : List Char, bk = "always".data ∨ bk = "initial".data →
        Warning.mk 1 (r2msg "P".data bk) ∉ checkModule c9ex) ∧
      Warning.mk 1 (r4msg "P".data) ∉ checkModule c9ex) ∧
    (∀ ln : Nat, Warning.mk ln (r3msg "x".data) ∉ checkModule c9cex) :=
  ⟨⟨by decide, by decide, by decide, by decide, by decide⟩,
    (C9_parameter_exemption c9ex "P".data (by decide)).1,
    (C9_parameter_exemption c9ex "P".data (by decide)).2 (by decide) (by decide)
      (by decide) 1,
    (C9_parameter_exemption c9cex "x".data (by decide)).1⟩

/-- C10 (missing module header fallback): when no module-header match
exists, the body offset is 0 and the body scanned by R3 and R4 is the whole
normalized text. -/
theorem C10_missing_header (input : List Char)
    (h : moduleHeaderEnd (normalize input) = none) :
    bodyStart (normalize input) = 0 ∧
    bodyText (normalize input) = normalize input ∧
    r3 (normalize input) =
      r3Go (normalize input) 0 (identsIn (normalize input)) [] := by
  have hb : bodyStart (normalize input) = 0 := by
    unfold bodyStart
    rw [h]
  refine ⟨hb, ?_, ?_⟩
  · unfold bodyText
    rw [hb, List.drop_zero]
  · unfold r3 bodyText
    rw [hb, List.drop_zero]

def c10ex : List Char := "wire w;\nassign w = x;\n".data

/-- C10 witness: a headerless input still analyzed over the whole text. -/
theorem C10_missing_header_witness :
    moduleHeaderEnd (normalize c10ex) = none ∧
    (bodyStart (normalize c10ex) = 0 ∧
      bodyText (normalize c10ex) = normalize c10ex ∧
      r3 (normalize c10ex) =
        r3Go (normalize c10ex) 0 (identsIn (normalize c10ex)) []) :=
  ⟨by decide, C10_missing_header c10ex (by decide)⟩

end VerilogLint
